import Mathlib

/-!
Shallow embedding of the distance module of the Divergent repository
(src/diverse_seq/distance.py) and verification of its specification.

Python conventions are modelled as follows:
* sequences of symbol codes are `List ℕ`, kmer hashes are `ℤ`;
* code that can raise an exception is embedded with `Option`/`Except`
  (`none`/`Except.error` marks the raising control path);
* Python's builtin `hash` on integer tuples is an opaque deterministic
  function, passed as an explicit parameter `H : List ℕ → ℤ`;
* the `heapq` bottom-sketch heap is represented by the sorted list of its
  stored (negated) entries: `heapq.heappush` is an ordered insert and
  `heapq.heappushpop` is an ordered insert followed by removal of the
  minimum (the head of the sorted list), which is exactly the observable
  multiset behaviour of the binary heap;
* the iteration order of the Python set `kmer_hashes` is unspecified; it
  is modelled by `List.dedup` (first-occurrence order).  The theorems
  below show the resulting sketch is order-independent.
-/

/-- Configuration stored by a successful `dvs_dist.__init__`
(the `self._...` attributes that the distance computation reads). -/
structure DvsDistConfig where
  distance_mode : String
  k : ℕ
  sketch_size : Option ℕ
  moltype : String
  mash_canonical : Bool

/-- Embedding of `dvs_dist.__init__` (distance.py lines 29-92).
A raised `ValueError` is modelled as `Except.error` carrying the message. -/
def dvs_dist_init (distance_mode : String) (k : ℕ) (sketch_size : Option ℕ)
    (moltype : String) (mash_canonical_kmers : Option Bool) :
    Except String DvsDistConfig :=
  let mc := mash_canonical_kmers.getD false
  if (moltype ≠ "dna" ∧ moltype ≠ "rna") ∧ mc = true then
    Except.error "Canonical kmers only supported for dna sequences."
  else if distance_mode = "mash" ∧ sketch_size = none then
    Except.error "Expected sketch size for mash distance measure."
  else if distance_mode ≠ "mash" ∧ sketch_size ≠ none then
    Except.error "Sketch size should only be specified for the mash distance."
  else
    Except.ok
      { distance_mode := distance_mode, k := k, sketch_size := sketch_size,
        moltype := moltype, mash_canonical := mc }

/-- Which distance path `dvs_dist.main` takes after converting the input
sequences to arrays. -/
inductive MainPath where
  | mash
  | euclidean

/-- Embedding of the mode dispatch inside `dvs_dist.main` (distance.py lines
100-125).  In the source this runs only after `seq_arrays` has already been
computed from the input collection (line 98), so an error raised here is a
per-call error, raised after computation on the input sequences began. -/
def main_dispatch (cfg : DvsDistConfig) : Except String MainPath :=
  if cfg.distance_mode = "mash" then Except.ok MainPath.mash
  else if cfg.distance_mode = "euclidean" then Except.ok MainPath.euclidean
  else Except.error ("Unexpected distance " ++ cfg.distance_mode ++ ".")

/-- Whether an `Except` value is an error. -/
def isErr {ε α : Type} : Except ε α → Bool
  | Except.error _ => true
  | Except.ok _ => false

/-- Embedding of `get_kmers` (distance.py lines 291-325).  The first scan
loop `for i in range(k)` indexes `seq[i]` for every `i < k`, so whenever
`len(seq) < k` it raises `IndexError`; that control path is `none`.
Otherwise every index used by either loop is in range and `seq.getD`
coincides with Python indexing.  (Assumes `k ≥ 1`, as all callers and the
spec do; Python's negative-index semantics for `k = 0` are not modelled.) -/
def get_kmers (seq : List ℕ) (k num_states : ℕ) : Option (List (List ℕ)) :=
  if seq.length < k then none
  else
    let skip_until :=
      (List.range k).foldl
        (fun su i => if num_states ≤ seq.getD i 0 then i + 1 else su) 0
    let out :=
      (List.range (seq.length - k + 1)).foldl
        (fun st i =>
          let su := if num_states ≤ seq.getD (i + k - 1) 0 then i + k else st.1
          if i < su then (su, st.2) else (su, st.2 ++ [(seq.drop i).take k]))
        (skip_until, [])
    some out.2

/-- Embedding of `reverse_complement` (distance.py lines 351-370):
`((kmer + 2) % 4)[::-1]`. -/
def reverse_complement (kmer : List ℕ) : List ℕ :=
  (kmer.map (fun s => (s + 2) % 4)).reverse

/-- Python comparison `a < b` on tuples of ints (lexicographic, with a
proper prefix smaller than the longer tuple). -/
def tupleLt : List ℕ → List ℕ → Bool
  | _, [] => false
  | [], _ :: _ => true
  | a :: xs, b :: ys =>
    if a < b then true else if b < a then false else tupleLt xs ys

/-- Python `min(a, b)`: returns `a` unless `b < a`. -/
def tupleMin (a b : List ℕ) : List ℕ :=
  if tupleLt b a then b else a

/-- Embedding of `hash_kmer` (distance.py lines 328-348).  `H` stands for
Python's builtin `hash` on integer tuples (opaque and deterministic). -/
def hash_kmer (H : List ℕ → ℤ) (kmer : List ℕ) (mash_canonical : Bool) : ℤ :=
  let tuple_kmer := kmer
  if mash_canonical then
    H (tupleMin (reverse_complement kmer) tuple_kmer)
  else
    H tuple_kmer

/-- One iteration of the sketch heap loop in `mash_sketch` (distance.py
lines 282-287), on the sorted-list representation of the `heapq` heap of
negated hashes: `heappush` when the heap is below `sketch_size`, else
`heappushpop` (push, then pop the minimum, i.e. the head). -/
def heapStep (sketch_size : ℕ) (heap : List ℤ) (kmer_hash : ℤ) : List ℤ :=
  if heap.length < sketch_size then
    List.orderedInsert (· ≤ ·) (-kmer_hash) heap
  else
    (List.orderedInsert (· ≤ ·) (-kmer_hash) heap).tail

/-- The hash-stream part of `mash_sketch` (distance.py lines 278-288):
deduplicate the hashes (the Python set), run the bounded heap, and return
`sorted(-kmer_hash for kmer_hash in heap)`. -/
def mash_sketch_hashes (hashes : List ℤ) (sketch_size : ℕ) : List ℤ :=
  let heap := hashes.dedup.foldl (heapStep sketch_size) []
  List.insertionSort (· ≤ ·) (heap.map (fun x => -x))

/-- Embedding of `mash_sketch` (distance.py lines 250-288); `none` if
`get_kmers` raises. -/
def mash_sketch (H : List ℕ → ℤ) (seq_array : List ℕ)
    (k sketch_size num_states : ℕ) (mash_canonical : Bool) :
    Option (List ℤ) :=
  (get_kmers seq_array k num_states).map
    (fun kmers =>
      mash_sketch_hashes (kmers.map (fun w => hash_kmer H w mash_canonical))
        sketch_size)

/-- The merge loop of `compute_mash_distance` (distance.py lines 398-417).
Returns the final `intersection_size`, `union_size`, and the number of
unconsumed entries of each sketch (`len(sketch) - index`). -/
def mashLoop (sketch_size : ℕ) (l r : List ℤ) (inter uni : ℕ) :
    ℕ × ℕ × ℕ × ℕ :=
  match l, r with
  | x :: ls, y :: rs =>
    if uni < sketch_size then
      if x < y then mashLoop sketch_size ls (y :: rs) inter (uni + 1)
      else if y < x then mashLoop sketch_size (x :: ls) rs inter (uni + 1)
      else mashLoop sketch_size ls rs (inter + 1) (uni + 1)
    else (inter, uni, (x :: ls).length, (y :: rs).length)
  | l', r' => (inter, uni, l'.length, r'.length)
termination_by l.length + r.length

/-- Embedding of `compute_mash_distance` (distance.py lines 373-434).
Python evaluates `jaccard = intersection_size / union_size` before any of
the special-case returns, so a zero `union_size` raises
`ZeroDivisionError`: that control path is `none`. -/
noncomputable def compute_mash_distance (left_sketch right_sketch : List ℤ)
    (k sketch_size : ℕ) : Option ℝ :=
  match mashLoop sketch_size left_sketch right_sketch 0 0 with
  | (intersection_size, uni0, left_rem, right_rem) =>
    let uni1 := if 0 < left_rem then uni0 + left_rem else uni0
    let uni2 := if 0 < right_rem then uni1 + right_rem else uni1
    let union_size := if uni0 < sketch_size then min uni2 sketch_size else uni0
    if union_size = 0 then none
    else
      let jaccard : ℝ := (intersection_size : ℝ) / (union_size : ℝ)
      if intersection_size = union_size then some 0
      else if intersection_size = 0 then some 1
      else
        let distance := -Real.log (2 * jaccard / (1 + jaccard)) / (k : ℝ)
        some (if distance > 1 then 1 else distance)

/-- The per-pair body of `euclidean_distances` (distance.py line 470):
`np.sqrt(((freq_i - freq_j) ** 2).sum())`.  NumPy raises a broadcasting
error when the two 1-D frequency vectors have different lengths; that
control path is `none`. -/
noncomputable def euclidean_distance_pair (freq_i freq_j : List ℝ) :
    Option ℝ :=
  if freq_i.length = freq_j.length then
    some (Real.sqrt ((List.zipWith (fun a b => (a - b) ^ 2) freq_i freq_j).sum))
  else none

/-- Successor of the largest index `j < p` with `num_states ≤ seq[j]`
(0 when there is none): the value the running `skip_until` variable of
`get_kmers` tracks. -/
def maxSkip (seq : List ℕ) (num_states : ℕ) : ℕ → ℕ
  | 0 => 0
  | p + 1 => if num_states ≤ seq.getD p 0 then p + 1 else maxSkip seq num_states p

/-- The window `seq[i : i+k]`. -/
def window (seq : List ℕ) (k i : ℕ) : List ℕ :=
  (seq.drop i).take k

/-- Whether the window `seq[i : i+k]` contains no symbol `≥ num_states`. -/
def windowOk (seq : List ℕ) (k num_states i : ℕ) : Bool :=
  (window seq k i).all (fun s => decide (s < num_states))

/-- The final `union_size` of `compute_mash_distance`, as a function of the
loop results (distance.py lines 419-424). -/
def mashUnion (u0 left_rem right_rem sketch_size : ℕ) : ℕ :=
  if u0 < sketch_size then
    min
      (if 0 < right_rem then
        (if 0 < left_rem then u0 + left_rem else u0) + right_rem
      else if 0 < left_rem then u0 + left_rem else u0)
      sketch_size
  else u0

/-- The tail of `compute_mash_distance` (distance.py lines 426-434) as a
function of the final intersection and union counts. -/
noncomputable def mashDistanceOfCounts (i u k : ℕ) : Option ℝ :=
  if u = 0 then none
  else
    let jaccard : ℝ := (i : ℝ) / (u : ℝ)
    if i = u then some 0
    else if i = 0 then some 1
    else
      let distance := -Real.log (2 * jaccard / (1 + jaccard)) / (k : ℝ)
      some (if distance > 1 then 1 else distance)

/-! ### Helper lemmas: Python tuple comparison and reverse complement -/

lemma tupleLt_asymm : ∀ a b : List ℕ, tupleLt a b = true → tupleLt b a = false := by
  intro a
  induction a with
  | nil =>
    intro b hb
    cases b with
    | nil => simp [tupleLt] at hb
    | cons y ys => simp [tupleLt]
  | cons x xs ih =>
    intro b hb
    cases b with
    | nil => simp [tupleLt] at hb
    | cons y ys =>
      simp only [tupleLt] at hb ⊢
      rcases Nat.lt_trichotomy x y with hxy | hxy | hxy
      · simp [hxy, Nat.not_lt.mpr (Nat.le_of_lt hxy), Nat.lt_irrefl]
      · subst hxy
        simp only [Nat.lt_irrefl, if_false] at hb ⊢
        exact ih ys hb
      · simp [hxy, Nat.not_lt.mpr (Nat.le_of_lt hxy)] at hb

lemma tupleLt_eq_of_not : ∀ a b : List ℕ, tupleLt a b = false → tupleLt b a = false → a = b := by
  intro a
  induction a with
  | nil =>
    intro b h1 _
    cases b with
    | nil => rfl
    | cons y ys => simp [tupleLt] at h1
  | cons x xs ih =>
    intro b h1 h2
    cases b with
    | nil => simp [tupleLt] at h2
    | cons y ys =>
      simp only [tupleLt] at h1 h2
      rcases Nat.lt_trichotomy x y with hxy | hxy | hxy
      · simp [hxy] at h1
      · subst hxy
        simp only [Nat.lt_irrefl, if_false] at h1 h2
        rw [ih ys h1 h2]
      · simp [hxy] at h2

lemma tupleMin_comm (a b : List ℕ) : tupleMin a b = tupleMin b a := by
  unfold tupleMin
  rcases h1 : tupleLt b a with _ | _ <;> rcases h2 : tupleLt a b with _ | _
  · simp [tupleLt_eq_of_not b a h1 h2]
  · simp
  · simp
  · have := tupleLt_asymm a b h2
    rw [this] at h1
    exact absurd h1 (by simp)

lemma reverse_complement_involutive (kmer : List ℕ) (h : ∀ s ∈ kmer, s < 4) :
    reverse_complement (reverse_complement kmer) = kmer := by
  unfold reverse_complement
  rw [List.map_reverse, List.reverse_reverse, List.map_map]
  have : kmer.map ((fun s => (s + 2) % 4) ∘ fun s => (s + 2) % 4) = kmer.map id := by
    apply List.map_congr_left
    intro a ha
    have h4 := h a ha
    simp only [Function.comp_apply, id_eq]
    omega
  rw [this, List.map_id]

/-! ### Claim theorems: configuration validation (C3, C4) -/

/-- C3 counterexample: constructing `dvs_dist` with the unrecognized
distance mode "hamming" (and no sketch size) does not raise at
construction time: `__init__` succeeds. -/
theorem dvs_dist_unknown_mode_constructs :
    isErr (dvs_dist_init "hamming" 16 none "dna" none) = false := by decide

/-- C3 (amended): with `sketch_size = None`, construction with an
unrecognized `distance_mode` succeeds, and the "Unexpected distance"
error is raised only by `main`'s mode dispatch, which in the source runs
after the input sequences have been converted to arrays. -/
theorem dvs_dist_unknown_mode_deferred (mode moltype : String) (k : ℕ)
    (h1 : mode ≠ "mash") (h2 : mode ≠ "euclidean")
    (h3 : moltype = "dna" ∨ moltype = "rna") :
    ∃ cfg, dvs_dist_init mode k none moltype none = Except.ok cfg ∧
      main_dispatch cfg = Except.error ("Unexpected distance " ++ mode ++ ".") := by
  refine ⟨{ distance_mode := mode, k := k, sketch_size := none,
            moltype := moltype, mash_canonical := false }, ?_, ?_⟩
  · unfold dvs_dist_init
    rcases h3 with h3 | h3 <;> simp [h1, h3, Option.getD]
  · unfold main_dispatch
    simp [h1, h2]

/-- C3 amended-claim witness at a concrete unrecognized mode. -/
theorem dvs_dist_unknown_mode_deferred_witness :
    ∃ cfg, dvs_dist_init "hamming" 16 none "dna" none = Except.ok cfg ∧
      main_dispatch cfg = Except.error ("Unexpected distance " ++ "hamming" ++ ".") :=
  dvs_dist_unknown_mode_deferred "hamming" "dna" 16 (by decide) (by decide) (Or.inl rfl)

/-- C4: each of the three invalid parameter combinations makes
`dvs_dist.__init__` raise (at construction, so `main` is never reached):
no sketch size in mash mode; a sketch size in a non-mash mode; canonical
kmers with a molecule type that is neither dna nor rna. -/
theorem dvs_dist_init_validation (mode : String) (k : ℕ) (ss : Option ℕ)
    (mt : String) (mc : Option Bool)
    (h : (mode = "mash" ∧ ss = none) ∨ (mode ≠ "mash" ∧ ss ≠ none) ∨
      ((mt ≠ "dna" ∧ mt ≠ "rna") ∧ mc = some true)) :
    isErr (dvs_dist_init mode k ss mt mc) = true := by
  simp only [dvs_dist_init]
  split_ifs with h1 h2 h3
  · rfl
  · rfl
  · rfl
  · exfalso
    rcases h with h | h | h
    · exact h2 h
    · exact h3 h
    · exact h1 ⟨h.1, by rw [h.2]; rfl⟩

/-- C4 witness: missing sketch size in mash mode is rejected. -/
theorem dvs_dist_init_validation_witness :
    isErr (dvs_dist_init "mash" 16 none "dna" none) = true :=
  dvs_dist_init_validation "mash" 16 none "dna" none (Or.inl ⟨rfl, rfl⟩)

/-! ### Claim theorems: canonical hashing (C7) -/

/-- C7: with canonical mode enabled, a kmer over the DNA states 0..3 and
its reverse complement hash identically, for every underlying tuple-hash
function `H`. -/
theorem hash_kmer_canonical (H : List ℕ → ℤ) (kmer : List ℕ)
    (h : ∀ s ∈ kmer, s < 4) :
    hash_kmer H (reverse_complement kmer) true = hash_kmer H kmer true := by
  have h2 := reverse_complement_involutive kmer h
  simp only [hash_kmer, if_true]
  rw [h2, tupleMin_comm]

/-- C7 witness at the concrete kmer `[0, 0, 1, 3]` and a concrete
base-4 tuple hash. -/
theorem hash_kmer_canonical_witness :
    (∀ s ∈ [0, 0, 1, 3], s < 4) ∧
      hash_kmer (fun w => w.foldl (fun a s => a * 4 + (s : ℤ)) 0)
          (reverse_complement [0, 0, 1, 3]) true =
        hash_kmer (fun w => w.foldl (fun a s => a * 4 + (s : ℤ)) 0)
          [0, 0, 1, 3] true :=
  ⟨by decide, hash_kmer_canonical _ _ (by decide)⟩

/-! ### Helper lemmas: the sketch merge loop -/

lemma mashLoop_nil_left (ss : ℕ) (r : List ℤ) (i u : ℕ) :
    mashLoop ss [] r i u = (i, u, 0, r.length) := by
  rw [mashLoop.eq_def]
  cases r <;> rfl

lemma mashLoop_nil_right (ss : ℕ) (l : List ℤ) (i u : ℕ) :
    mashLoop ss l [] i u = (i, u, l.length, 0) := by
  rw [mashLoop.eq_def]
  cases l <;> rfl

lemma mashLoop_uni_le (ss : ℕ) (l r : List ℤ) (inter uni : ℕ) :
    uni ≤ (mashLoop ss l r inter uni).2.1 := by
  induction l, r, inter, uni using mashLoop.induct ss with
  | case1 inter uni x ls y rs huni hxy ih =>
    simp only [mashLoop, if_pos huni, if_pos hxy]
    exact le_trans (Nat.le_succ uni) ih
  | case2 inter uni x ls y rs huni hxy hyx ih =>
    simp only [mashLoop, if_pos huni, if_neg hxy, if_pos hyx]
    exact le_trans (Nat.le_succ uni) ih
  | case3 inter uni x ls y rs huni hxy hyx ih =>
    simp only [mashLoop, if_pos huni, if_neg hxy, if_neg hyx]
    exact le_trans (Nat.le_succ uni) ih
  | case4 inter uni x ls y rs huni =>
    simp only [mashLoop, if_neg huni]
    exact Nat.le_refl uni
  | case5 inter uni l' r' hshape =>
    rcases l' with _ | ⟨x, ls⟩
    · rw [mashLoop_nil_left]
    · rcases r' with _ | ⟨y, rs⟩
      · rw [mashLoop_nil_right]
      · exact absurd (hshape x ls y rs rfl rfl) (fun f => f)

lemma mashLoop_inter_le (ss : ℕ) (l r : List ℤ) (inter uni : ℕ) :
    inter ≤ uni → (mashLoop ss l r inter uni).1 ≤ (mashLoop ss l r inter uni).2.1 := by
  induction l, r, inter, uni using mashLoop.induct ss with
  | case1 inter uni x ls y rs huni hxy ih =>
    intro h
    simp only [mashLoop, if_pos huni, if_pos hxy]
    exact ih (by omega)
  | case2 inter uni x ls y rs huni hxy hyx ih =>
    intro h
    simp only [mashLoop, if_pos huni, if_neg hxy, if_pos hyx]
    exact ih (by omega)
  | case3 inter uni x ls y rs huni hxy hyx ih =>
    intro h
    simp only [mashLoop, if_pos huni, if_neg hxy, if_neg hyx]
    exact ih (by omega)
  | case4 inter uni x ls y rs huni =>
    intro h
    simp only [mashLoop, if_neg huni]
    exact h
  | case5 inter uni l' r' hshape =>
    intro h
    rcases l' with _ | ⟨x, ls⟩
    · rw [mashLoop_nil_left]
      exact h
    · rcases r' with _ | ⟨y, rs⟩
      · rw [mashLoop_nil_right]
        exact h
      · exact absurd (hshape x ls y rs rfl rfl) (fun f => f)

lemma mashLoop_disjoint (ss : ℕ) (l r : List ℤ) (inter uni : ℕ) :
    (∀ x ∈ l, x ∉ r) → (mashLoop ss l r inter uni).1 = inter := by
  induction l, r, inter, uni using mashLoop.induct ss with
  | case1 inter uni x ls y rs huni hxy ih =>
    intro hd
    simp only [mashLoop, if_pos huni, if_pos hxy]
    exact ih (fun a ha hb => hd a (List.mem_cons_of_mem x ha) hb)
  | case2 inter uni x ls y rs huni hxy hyx ih =>
    intro hd
    simp only [mashLoop, if_pos huni, if_neg hxy, if_pos hyx]
    exact ih (fun a ha hb => hd a ha (List.mem_cons_of_mem y hb))
  | case3 inter uni x ls y rs huni hxy hyx ih =>
    intro hd
    exfalso
    have hxyeq : x = y := le_antisymm (not_lt.mp hyx) (not_lt.mp hxy)
    exact hd x (List.mem_cons_self x ls) (hxyeq ▸ List.mem_cons_self y rs)
  | case4 inter uni x ls y rs huni =>
    intro _
    simp only [mashLoop, if_neg huni]
  | case5 inter uni l' r' hshape =>
    intro _
    rcases l' with _ | ⟨x, ls⟩
    · rw [mashLoop_nil_left]
    · rcases r' with _ | ⟨y, rs⟩
      · rw [mashLoop_nil_right]
      · exact absurd (hshape x ls y rs rfl rfl) (fun f => f)

lemma mashLoop_symm (ss : ℕ) (l r : List ℤ) (inter uni : ℕ) :
    mashLoop ss r l inter uni =
      ((mashLoop ss l r inter uni).1, (mashLoop ss l r inter uni).2.1,
        (mashLoop ss l r inter uni).2.2.2, (mashLoop ss l r inter uni).2.2.1) := by
  induction l, r, inter, uni using mashLoop.induct ss with
  | case1 inter uni x ls y rs huni hxy ih =>
    have hyx : ¬ y < x := by omega
    simp only [mashLoop, if_pos huni, if_pos hxy, if_neg hyx]
    exact ih
  | case2 inter uni x ls y rs huni hxy hyx ih =>
    simp only [mashLoop, if_pos huni, if_neg hxy, if_pos hyx]
    exact ih
  | case3 inter uni x ls y rs huni hxy hyx ih =>
    simp only [mashLoop, if_pos huni, if_neg hxy, if_neg hyx]
    exact ih
  | case4 inter uni x ls y rs huni =>
    simp only [mashLoop, if_neg huni]
  | case5 inter uni l' r' hshape =>
    rcases l' with _ | ⟨x, ls⟩
    · rw [mashLoop_nil_left, mashLoop_nil_right]
    · rcases r' with _ | ⟨y, rs⟩
      · rw [mashLoop_nil_left, mashLoop_nil_right]
      · exact absurd (hshape x ls y rs rfl rfl) (fun f => f)

lemma mashLoop_start_pos (ss : ℕ) (x y : ℤ) (ls rs : List ℤ) (h : 0 < ss) :
    1 ≤ (mashLoop ss (x :: ls) (y :: rs) 0 0).2.1 := by
  simp only [mashLoop, if_pos h]
  split_ifs <;> exact le_trans (Nat.le_refl 1) (mashLoop_uni_le ss _ _ _ 1)

lemma compute_mash_distance_counts (l r : List ℤ) (k ss i u0 a b : ℕ)
    (h : mashLoop ss l r 0 0 = (i, u0, a, b)) :
    compute_mash_distance l r k ss = mashDistanceOfCounts i (mashUnion u0 a b ss) k := by
  simp only [compute_mash_distance, h, mashDistanceOfCounts, mashUnion]

/-! ### Claim theorems: degenerate inputs of the estimators (C1, C2) -/

/-- C1: at the failing input of two empty bottom sketches the merge loop
leaves `union_size = 0`, and the line `jaccard = intersection_size /
union_size` divides zero by zero, so `compute_mash_distance` raises
`ZeroDivisionError` (the `none` control path) instead of returning the
distance 0.0 the specification prescribes. -/
theorem mash_distance_two_empty_raises :
    compute_mash_distance [] [] 1 1 = none := by
  rw [compute_mash_distance_counts [] [] 1 1 0 0 0 0 (by simp [mashLoop_nil_left])]
  simp [mashDistanceOfCounts, mashUnion]

/-- C2: at the failing input `seq = [0]`, `k = 2` the initial scan loop of
`get_kmers` indexes `seq[1]` out of range and raises `IndexError` (the
`none` control path) instead of returning the empty list of windows the
specification prescribes. -/
theorem get_kmers_short_seq_raises : get_kmers [0] 2 4 = none := by decide

/-! ### Claim theorems: symmetry of both estimators (C9) -/

/-- C9: `compute_mash_distance` is symmetric in its two sketches, and the
per-pair Euclidean distance over kmer frequency vectors is symmetric in
its two vectors. -/
theorem distance_estimators_symmetric :
    (∀ (l r : List ℤ) (k ss : ℕ),
      compute_mash_distance l r k ss = compute_mash_distance r l k ss) ∧
    (∀ a b : List ℝ,
      euclidean_distance_pair a b = euclidean_distance_pair b a) := by
  constructor
  · intro l r k ss
    rcases hml : mashLoop ss l r 0 0 with ⟨i, u0, a, b⟩
    have hsym := mashLoop_symm ss l r 0 0
    rw [hml] at hsym
    rw [compute_mash_distance_counts l r k ss i u0 a b hml,
      compute_mash_distance_counts r l k ss i u0 b a hsym]
    have huni : mashUnion u0 a b ss = mashUnion u0 b a ss := by
      unfold mashUnion
      split_ifs <;> omega
    rw [huni]
  · intro a b
    unfold euclidean_distance_pair
    by_cases h : a.length = b.length
    · rw [if_pos h, if_pos h.symm]
      have hz : List.zipWith (fun x y => (x - y) ^ 2) a b =
          List.zipWith (fun x y => (x - y) ^ 2) b a :=
        List.zipWith_comm_of_comm _ (fun x y => by ring) a b
      rw [hz]
    · rw [if_neg h, if_neg (fun hh => h hh.symm)]

/-! ### Claim theorems: mash distance range and disjointness (C8, C10) -/

lemma mashUnion_pos (ss : ℕ) (l r : List ℤ) (i u0 a b : ℕ)
    (hml : mashLoop ss l r 0 0 = (i, u0, a, b)) (hss : 0 < ss)
    (hne : l ≠ [] ∨ r ≠ []) : 1 ≤ mashUnion u0 a b ss := by
  rcases l with _ | ⟨x, ls⟩
  · rcases r with _ | ⟨y, rs⟩
    · rcases hne with h | h <;> exact absurd rfl h
    · rw [mashLoop_nil_left] at hml
      simp only [Prod.mk.injEq, List.length_cons] at hml
      obtain ⟨hi, hu0, ha, hb⟩ := hml
      unfold mashUnion
      split_ifs <;> omega
  · rcases r with _ | ⟨y, rs⟩
    · rw [mashLoop_nil_right] at hml
      simp only [Prod.mk.injEq, List.length_cons] at hml
      obtain ⟨hi, hu0, ha, hb⟩ := hml
      unfold mashUnion
      split_ifs <;> omega
    · have hpos := mashLoop_start_pos ss x y ls rs hss
      rw [hml] at hpos
      simp only at hpos
      unfold mashUnion
      split_ifs <;> omega

lemma mashDistanceOfCounts_range (i u k : ℕ) (hk : 0 < k) (hu : 0 < u)
    (hi : i ≤ u) :
    ∃ d, mashDistanceOfCounts i u k = some d ∧ 0 ≤ d ∧ d ≤ 1 := by
  simp only [mashDistanceOfCounts]
  rw [if_neg (by omega)]
  by_cases h1 : i = u
  · rw [if_pos h1]
    exact ⟨0, rfl, le_refl 0, by norm_num⟩
  · rw [if_neg h1]
    by_cases h2 : i = 0
    · rw [if_pos h2]
      exact ⟨1, rfl, by norm_num, le_refl 1⟩
    · rw [if_neg h2]
      have hi0 : 0 < i := Nat.pos_of_ne_zero h2
      have hiu : i < u := lt_of_le_of_ne hi h1
      set j : ℝ := (i : ℝ) / (u : ℝ) with hj
      have hj0 : 0 < j := div_pos (by exact_mod_cast hi0) (by exact_mod_cast hu)
      have hj1 : j < 1 := (div_lt_one (by exact_mod_cast hu)).mpr (by exact_mod_cast hiu)
      have hx0 : 0 < 2 * j / (1 + j) := div_pos (by linarith) (by linarith)
      have hx1 : 2 * j / (1 + j) < 1 := (div_lt_one (by linarith)).mpr (by linarith)
      have hlog : Real.log (2 * j / (1 + j)) < 0 := Real.log_neg hx0 hx1
      have hkr : (0 : ℝ) < (k : ℝ) := by exact_mod_cast hk
      have hd0 : 0 ≤ -Real.log (2 * j / (1 + j)) / (k : ℝ) :=
        div_nonneg (by linarith) hkr.le
      by_cases h3 : -Real.log (2 * j / (1 + j)) / (k : ℝ) > 1
      · exact ⟨1, by rw [if_pos h3], by norm_num, le_refl 1⟩
      · exact ⟨_, by rw [if_neg h3], hd0, not_lt.mp h3⟩

/-- C8 counterexample: the pair of two empty sketches is a valid sketch
pair, but `compute_mash_distance` returns no distance at all there (it
raises `ZeroDivisionError`), so in particular no distance in [0, 1]. -/
theorem mash_distance_empty_pair_undefined :
    ¬ ∃ d, compute_mash_distance [] [] 1 1 = some d ∧ 0 ≤ d ∧ d ≤ 1 := by
  rintro ⟨d, hd, _, _⟩
  have h0 : compute_mash_distance [] [] 1 1 = none := by
    rw [compute_mash_distance_counts [] [] 1 1 0 0 0 0 (by simp [mashLoop_nil_left])]
    simp [mashDistanceOfCounts, mashUnion]
  rw [h0] at hd
  exact Option.noConfusion hd

/-- C8 (amended): for every valid pair of bottom sketches (strictly
ascending entries, length at most `sketch_size`) with positive `k` and
`sketch_size`, of which at least one sketch is nonempty,
`compute_mash_distance` returns a distance in [0, 1]. -/
theorem mash_distance_range (l r : List ℤ) (k ss : ℕ)
    (hl : List.Pairwise (· < ·) l) (hr : List.Pairwise (· < ·) r)
    (hls : l.length ≤ ss) (hrs : r.length ≤ ss)
    (hk : 0 < k) (hss : 0 < ss) (hne : l ≠ [] ∨ r ≠ []) :
    ∃ d, compute_mash_distance l r k ss = some d ∧ 0 ≤ d ∧ d ≤ 1 := by
  rcases hml : mashLoop ss l r 0 0 with ⟨i, u0, a, b⟩
  have hle : i ≤ u0 := by
    have h := mashLoop_inter_le ss l r 0 0 (le_refl 0)
    rw [hml] at h
    simpa using h
  have hu := mashUnion_pos ss l r i u0 a b hml hss hne
  have hiu : i ≤ mashUnion u0 a b ss := by
    unfold mashUnion
    split_ifs <;> omega
  rw [compute_mash_distance_counts l r k ss i u0 a b hml]
  exact mashDistanceOfCounts_range i _ k hk (by omega) hiu

/-- C8 amended-claim witness at the concrete valid pair `[0]`, `[1]`. -/
theorem mash_distance_range_witness :
    ∃ d, compute_mash_distance [0] [1] 1 2 = some d ∧ 0 ≤ d ∧ d ≤ 1 :=
  mash_distance_range [0] [1] 1 2 (by decide) (by decide) (by decide)
    (by decide) (by decide) (by decide) (Or.inl (by decide))

/-- C10 counterexample: the two empty sketches share no hash value, yet
`compute_mash_distance` does not return 1.0 there: it returns nothing at
all (`ZeroDivisionError`). -/
theorem mash_distance_disjoint_empty_undefined :
    (∀ x ∈ ([] : List ℤ), x ∉ ([] : List ℤ)) ∧
      compute_mash_distance [] [] 1 1 ≠ some 1 := by
  constructor
  · intro x hx
    exact absurd hx (List.not_mem_nil x)
  · intro hc
    have h0 : compute_mash_distance [] [] 1 1 = none := by
      rw [compute_mash_distance_counts [] [] 1 1 0 0 0 0 (by simp [mashLoop_nil_left])]
      simp [mashDistanceOfCounts, mashUnion]
    rw [h0] at hc
    exact Option.noConfusion hc

/-- C10 (amended): for every valid pair of disjoint bottom sketches of
which at least one is nonempty (and positive `sketch_size`),
`compute_mash_distance` returns exactly 1.0. -/
theorem mash_distance_disjoint_one (l r : List ℤ) (k ss : ℕ)
    (hl : List.Pairwise (· < ·) l) (hr : List.Pairwise (· < ·) r)
    (hls : l.length ≤ ss) (hrs : r.length ≤ ss) (hss : 0 < ss)
    (hd : ∀ x ∈ l, x ∉ r) (hne : l ≠ [] ∨ r ≠ []) :
    compute_mash_distance l r k ss = some 1 := by
  rcases hml : mashLoop ss l r 0 0 with ⟨i, u0, a, b⟩
  have hi : i = 0 := by
    have h := mashLoop_disjoint ss l r 0 0 hd
    rw [hml] at h
    simpa using h
  have hu := mashUnion_pos ss l r i u0 a b hml hss hne
  rw [compute_mash_distance_counts l r k ss i u0 a b hml]
  subst hi
  simp only [mashDistanceOfCounts]
  rw [if_neg (by omega), if_neg (by omega)]
  simp

/-- C10 amended-claim witness at the concrete disjoint pair `[0]`, `[1]`. -/
theorem mash_distance_disjoint_one_witness :
    compute_mash_distance [0] [1] 1 2 = some 1 :=
  mash_distance_disjoint_one [0] [1] 1 2 (by decide) (by decide) (by decide)
    (by decide) (by decide) (by decide) (Or.inl (by decide))

/-! ### Claim theorems: kmer extraction (C5) -/

lemma maxSkip_le (seq : List ℕ) (ns : ℕ) : ∀ p, maxSkip seq ns p ≤ p := by
  intro p
  induction p with
  | zero => simp [maxSkip]
  | succ q ih =>
    simp only [maxSkip]
    split_ifs
    · exact Nat.le_refl _
    · exact Nat.le_trans ih (Nat.le_succ q)

lemma maxSkip_le_iff (seq : List ℕ) (ns m : ℕ) :
    ∀ p, (maxSkip seq ns p ≤ m ↔ ∀ j, m ≤ j → j < p → seq.getD j 0 < ns) := by
  intro p
  induction p with
  | zero => simp [maxSkip]
  | succ q ih =>
    simp only [maxSkip]
    split_ifs with hb
    · constructor
      · intro h j hmj hjq
        omega
      · intro h
        by_contra hc
        push_neg at hc
        have := h q (by omega) (by omega)
        omega
    · constructor
      · intro h j hmj hjq
        rcases Nat.lt_succ_iff_lt_or_eq.mp hjq with hj | hj
        · exact (ih.mp h) j hmj hj
        · subst hj
          omega
      · intro h
        exact ih.mpr (fun j hmj hjq => h j hmj (by omega))

lemma init_skip_eq (seq : List ℕ) (ns : ℕ) :
    ∀ p, (List.range p).foldl
        (fun su i => if ns ≤ seq.getD i 0 then i + 1 else su) 0
      = maxSkip seq ns p := by
  intro p
  induction p with
  | zero => rfl
  | succ q ih =>
    rw [List.range_succ, List.foldl_append, ih]
    simp [maxSkip]

lemma windowOk_iff (seq : List ℕ) (k ns i : ℕ) (h : i + k ≤ seq.length) :
    windowOk seq k ns i = true ↔ ∀ j, i ≤ j → j < i + k → seq.getD j 0 < ns := by
  unfold windowOk window
  rw [List.all_eq_true]
  constructor
  · intro hall j hij hjk
    have hjlen : j < seq.length := by omega
    have hjl : j - i < ((seq.drop i).take k).length := by
      simp only [List.length_take, List.length_drop]
      omega
    have hmem : ((seq.drop i).take k)[j - i] ∈ (seq.drop i).take k :=
      List.getElem_mem hjl
    have hdec := hall _ hmem
    rw [List.getElem_take, List.getElem_drop] at hdec
    rw [decide_eq_true_iff] at hdec
    rw [List.getD_eq_getElem seq 0 hjlen]
    have hidx : i + (j - i) = j := by omega
    simp only [hidx] at hdec
    exact hdec
  · intro hj x hx
    rw [List.mem_iff_getElem] at hx
    obtain ⟨m, hm, hx⟩ := hx
    have hmk : m < k := by
      simp only [List.length_take, List.length_drop] at hm
      omega
    rw [List.getElem_take, List.getElem_drop] at hx
    have hlt := hj (i + m) (by omega) (by omega)
    rw [List.getD_eq_getElem seq 0 (by omega)] at hlt
    rw [decide_eq_true_iff, ← hx]
    exact hlt

lemma kmers_fold (seq : List ℕ) (k ns : ℕ) (hk : 1 ≤ k) (hkn : k ≤ seq.length) :
    ∀ (c : ℕ) (m su : ℕ) (acc : List (List ℕ)),
      m + c ≤ seq.length - k + 1 →
      (if ns ≤ seq.getD (m + k - 1) 0 then m + k else su) = maxSkip seq ns (m + k) →
      ((List.range' m c).foldl
        (fun st i =>
          let su2 := if ns ≤ seq.getD (i + k - 1) 0 then i + k else st.1
          if i < su2 then (su2, st.2) else (su2, st.2 ++ [(seq.drop i).take k]))
        (su, acc)).2
        = acc ++ ((List.range' m c).filter (windowOk seq k ns)).map (window seq k) := by
  intro c
  induction c with
  | zero =>
    intro m su acc hbound hsu
    simp
  | succ c ih =>
    intro m su acc hbound hsu
    rw [List.range'_succ]
    simp only [List.foldl_cons, List.filter_cons]
    have hmk : m + k ≤ seq.length := by omega
    have hok : windowOk seq k ns m = true ↔ maxSkip seq ns (m + k) ≤ m := by
      rw [windowOk_iff seq k ns m hmk]
      exact (maxSkip_le_iff seq ns m (m + k)).symm
    have hnext : (if ns ≤ seq.getD (m + 1 + k - 1) 0 then m + 1 + k else
        maxSkip seq ns (m + k)) = maxSkip seq ns (m + 1 + k) := by
      have h1 : m + 1 + k - 1 = m + k := by omega
      have h2 : m + 1 + k = m + k + 1 := by omega
      rw [h1, h2]
      simp [maxSkip]
    cases hw : windowOk seq k ns m with
    | false =>
      have hskip : m < (if ns ≤ seq.getD (m + k - 1) 0 then m + k else su) := by
        rw [hsu]
        have := (not_iff_not.mpr hok).mp (by simp [hw])
        omega
      rw [if_pos hskip]
      rw [hsu] at hskip ⊢
      rw [ih (m + 1) (maxSkip seq ns (m + k)) acc (by omega) hnext]
      simp
    | true =>
      have hstay : ¬ m < (if ns ≤ seq.getD (m + k - 1) 0 then m + k else su) := by
        rw [hsu]
        have := hok.mp hw
        omega
      rw [if_neg hstay]
      rw [hsu]
      rw [ih (m + 1) (maxSkip seq ns (m + k)) (acc ++ [(seq.drop m).take k])
        (by omega) hnext]
      simp [window, List.append_assoc]

/-- C5: for a sequence of length at least `k ≥ 1` and any `num_states`,
`get_kmers` returns exactly the windows `[i, i+k)` for `i` in `[0, n-k]`
whose symbols are all `< num_states`, in increasing order of `i` (and
hence never a window containing a symbol `≥ num_states`). -/
theorem get_kmers_windows_spec (seq : List ℕ) (k ns : ℕ) (hk : 1 ≤ k)
    (hkn : k ≤ seq.length) :
    get_kmers seq k ns =
      some (((List.range (seq.length - k + 1)).filter
        (windowOk seq k ns)).map (window seq k)) := by
  unfold get_kmers
  rw [if_neg (by omega)]
  simp only [init_skip_eq]
  rw [List.range_eq_range']
  have hinit : (if ns ≤ seq.getD (0 + k - 1) 0 then 0 + k else maxSkip seq ns k)
      = maxSkip seq ns (0 + k) := by
    have h1 : 0 + k - 1 = k - 1 := by omega
    have h2 : 0 + k = k := by omega
    rw [h1, h2]
    by_cases hb : ns ≤ seq.getD (k - 1) 0
    · rw [if_pos hb]
      have h3 : k = k - 1 + 1 := by omega
      conv_rhs => rw [h3]
      show k = if ns ≤ seq.getD (k - 1) 0 then k - 1 + 1 else maxSkip seq ns (k - 1)
      rw [if_pos hb]
      omega
    · rw [if_neg hb]
  rw [kmers_fold seq k ns hk hkn (seq.length - k + 1) 0 (maxSkip seq ns k)
    [] (by omega) hinit]
  simp

/-- C5 witness at the concrete sequence `[0, 5, 1, 2]` with `k = 2`,
`num_states = 4` (the middle symbol 5 is ambiguous, so only the final
window `[1, 2]` survives). -/
theorem get_kmers_windows_spec_witness :
    get_kmers [0, 5, 1, 2] 2 4 =
      some (((List.range ([0, 5, 1, 2].length - 2 + 1)).filter
        (windowOk [0, 5, 1, 2] 2 4)).map (window [0, 5, 1, 2] 2)) :=
  get_kmers_windows_spec [0, 5, 1, 2] 2 4 (by decide) (by decide)

/-! ### Claim theorems: bottom sketch construction (C6) -/

lemma insertionSort_congr {l l' : List ℤ} (h : l.Perm l') :
    List.insertionSort (· ≤ ·) l = List.insertionSort (· ≤ ·) l' :=
  List.eq_of_perm_of_sorted
    ((List.perm_insertionSort _ l).trans (h.trans (List.perm_insertionSort _ l').symm))
    (List.sorted_insertionSort _ l) (List.sorted_insertionSort _ l')

lemma insertionSort_cons_eq (a : ℤ) (l : List ℤ) :
    List.insertionSort (· ≤ ·) (a :: l)
      = List.orderedInsert (· ≤ ·) a (List.insertionSort (· ≤ ·) l) := rfl

lemma dropLast_take_succ (l : List ℤ) (m : ℕ) (h : m < l.length) :
    (l.take (m + 1)).dropLast = l.take m := by
  rw [List.dropLast_eq_take, List.length_take, List.take_take]
  have h1 : min (m + 1) l.length = m + 1 := by omega
  rw [h1]
  have h2 : (m + 1 - 1) ⊓ (m + 1) = m := by omega
  rw [h2]

lemma dropLast_cons_ne (a : ℤ) (X : List ℤ) (h : X ≠ []) :
    (a :: X).dropLast = a :: X.dropLast := by
  cases X with
  | nil => exact absurd rfl h
  | cons b Y => exact List.dropLast_cons₂

lemma take_orderedInsert_dropLast (h : ℤ) :
    ∀ (s : List ℤ) (ss : ℕ), ss ≤ s.length →
      (List.orderedInsert (· ≤ ·) h s).take ss
        = (List.orderedInsert (· ≤ ·) h (s.take ss)).dropLast := by
  intro s
  induction s with
  | nil =>
    intro ss hss
    have h0 : ss = 0 := by simpa using hss
    subst h0
    rfl
  | cons a s' ih =>
    intro ss hss
    rcases ss with _ | m
    · rfl
    · simp only [List.orderedInsert, List.take_succ_cons]
      by_cases hha : h ≤ a
      · rw [if_pos hha, if_pos hha]
        rw [List.take_succ_cons]
        rw [show (h :: a :: List.take m s').dropLast
            = h :: (a :: List.take m s').dropLast from List.dropLast_cons₂]
        rw [show (a : ℤ) :: List.take m s' = List.take (m + 1) (a :: s') from
          (List.take_succ_cons).symm]
        rw [dropLast_take_succ (a :: s') m
          (by have := hss; simp only [List.length_cons] at this ⊢; omega)]
      · rw [if_neg hha, if_neg hha]
        rw [List.take_succ_cons]
        have hne : List.orderedInsert (· ≤ ·) h (List.take m s') ≠ [] := by
          have hlen := List.orderedInsert_length (· ≤ ·) (List.take m s') h
          intro hc
          rw [hc] at hlen
          simp at hlen
        rw [dropLast_cons_ne a _ hne]
        rw [ih m (by have := hss; simp only [List.length_cons] at this; omega)]

lemma orderedInsert_top_dropLast (b : ℤ) :
    ∀ (Y : List ℤ), List.Sorted (· ≤ ·) Y → (∀ z ∈ Y, z ≤ b) →
      (List.orderedInsert (· ≤ ·) b Y).dropLast = Y := by
  intro Y
  induction Y with
  | nil => intro _ _; rfl
  | cons y Y' ih =>
    intro hs hb
    simp only [List.orderedInsert]
    by_cases hby : b ≤ y
    · rw [if_pos hby]
      have hyb : y ≤ b := hb y (List.mem_cons_self y Y')
      have hyeq : y = b := le_antisymm hyb hby
      subst hyeq
      have hall : ∀ z ∈ Y', z = y := by
        intro z hz
        have h1 : y ≤ z := (List.pairwise_cons.mp hs).1 z hz
        have h2 : z ≤ y := hb z (List.mem_cons_of_mem y hz)
        omega
      have hrep : Y' = List.replicate Y'.length y := List.eq_replicate_of_mem hall
      rw [hrep]
      have h2 : (y : ℤ) :: y :: List.replicate Y'.length y
          = (y :: List.replicate Y'.length y) ++ [y] := by
        rw [List.cons_append]
        congr 1
        rw [← List.replicate_succ']
        rw [List.replicate_succ]
      rw [h2, List.dropLast_concat]
    · rw [if_neg hby]
      have hne : List.orderedInsert (· ≤ ·) b Y' ≠ [] := by
        have := List.orderedInsert_length (· ≤ ·) Y' b
        intro hc
        rw [hc] at this
        simp at this
      rw [dropLast_cons_ne y _ hne]
      rw [ih ((List.pairwise_cons.mp hs).2) (fun z hz => hb z (List.mem_cons_of_mem y hz))]

lemma sorted_tail {l : List ℤ} (h : List.Sorted (· ≤ ·) l) :
    List.Sorted (· ≤ ·) l.tail := by
  cases l with
  | nil => exact h
  | cons a t => exact (List.pairwise_cons.mp h).2

lemma insertionSort_append_singleton (p : List ℤ) (h : ℤ) :
    List.insertionSort (· ≤ ·) (p ++ [h])
      = List.orderedInsert (· ≤ ·) h (List.insertionSort (· ≤ ·) p) := by
  refine List.eq_of_perm_of_sorted (r := (· ≤ ·)) ?_
    (List.sorted_insertionSort _ _)
    (List.Sorted.orderedInsert h _ (List.sorted_insertionSort _ p))
  exact (List.perm_insertionSort _ _).trans
    ((List.perm_append_singleton h p).trans
      (((List.perm_insertionSort _ p).symm.cons h).trans
        (List.perm_orderedInsert _ h _).symm))

lemma IS_tail_map_neg (A : List ℤ) (hA : List.Sorted (· ≤ ·) A) (hne : A ≠ []) :
    List.insertionSort (· ≤ ·) (A.tail.map (fun x => -x))
      = (List.insertionSort (· ≤ ·) (A.map (fun x => -x))).dropLast := by
  rcases A with _ | ⟨a, A'⟩
  · exact absurd rfl hne
  · simp only [List.tail_cons, List.map_cons]
    rw [insertionSort_cons_eq]
    have hbound : ∀ z ∈ List.insertionSort (· ≤ ·) (A'.map (fun x => -x)), z ≤ -a := by
      intro z hz
      rw [List.mem_insertionSort, List.mem_map] at hz
      obtain ⟨x, hx, rfl⟩ := hz
      have := (List.pairwise_cons.mp hA).1 x hx
      exact neg_le_neg this
    rw [orderedInsert_top_dropLast (-a) _ (List.sorted_insertionSort _ _) hbound]

lemma heapStep_invariant (ss : ℕ) (heap : List ℤ) (h : ℤ) (p : List ℤ)
    (hs : List.Sorted (· ≤ ·) heap)
    (hinv : List.insertionSort (· ≤ ·) (heap.map (fun x => -x))
      = (List.insertionSort (· ≤ ·) p).take ss) :
    List.Sorted (· ≤ ·) (heapStep ss heap h) ∧
      List.insertionSort (· ≤ ·) ((heapStep ss heap h).map (fun x => -x))
        = (List.insertionSort (· ≤ ·) (p ++ [h])).take ss := by
  rw [insertionSort_append_singleton]
  have hpermA : ((List.orderedInsert (· ≤ ·) (-h) heap).map (fun x : ℤ => -x)).Perm
      (h :: heap.map (fun x : ℤ => -x)) := by
    have h1 := (List.perm_orderedInsert (· ≤ ·) (-h) heap).map (fun x : ℤ => -x)
    simpa using h1
  have hlenheap : heap.length
      = min ss (List.insertionSort (· ≤ ·) p).length := by
    have hl := congrArg List.length hinv
    simpa [List.length_insertionSort, List.length_map, List.length_take] using hl
  unfold heapStep
  by_cases hcase : heap.length < ss
  · rw [if_pos hcase]
    refine ⟨List.Sorted.orderedInsert _ _ hs, ?_⟩
    have hplen : (List.insertionSort (· ≤ ·) p).length < ss := by
      rcases lt_or_le (List.insertionSort (· ≤ ·) p).length ss with hlt | hle
      · exact hlt
      · rw [Nat.min_eq_left hle] at hlenheap
        omega
    have htake1 : (List.insertionSort (· ≤ ·) p).take ss
        = List.insertionSort (· ≤ ·) p := List.take_all_of_le (by omega)
    have htake2 : (List.orderedInsert (· ≤ ·) h (List.insertionSort (· ≤ ·) p)).take ss
        = List.orderedInsert (· ≤ ·) h (List.insertionSort (· ≤ ·) p) := by
      apply List.take_all_of_le
      rw [List.orderedInsert_length]
      omega
    rw [htake2, insertionSort_congr hpermA, insertionSort_cons_eq, hinv, htake1]
  · rw [if_neg hcase]
    have hsA : List.Sorted (· ≤ ·) (List.orderedInsert (· ≤ ·) (-h) heap) :=
      List.Sorted.orderedInsert _ _ hs
    refine ⟨sorted_tail hsA, ?_⟩
    have hlen2 : ss ≤ (List.insertionSort (· ≤ ·) p).length := by
      by_contra hc
      push_neg at hc
      rw [Nat.min_eq_right (le_of_lt hc)] at hlenheap
      omega
    rw [take_orderedInsert_dropLast h _ ss hlen2]
    rw [← hinv]
    rw [← insertionSort_cons_eq]
    rw [← insertionSort_congr hpermA]
    have hAne : List.orderedInsert (· ≤ ·) (-h) heap ≠ [] := by
      have := List.orderedInsert_length (· ≤ ·) heap (-h)
      intro hc
      rw [hc] at this
      simp at this
    exact IS_tail_map_neg _ hsA hAne

lemma heap_fold_invariant (ss : ℕ) :
    ∀ (l p heap : List ℤ),
      List.Sorted (· ≤ ·) heap →
      List.insertionSort (· ≤ ·) (heap.map (fun x => -x))
        = (List.insertionSort (· ≤ ·) p).take ss →
      List.Sorted (· ≤ ·) (l.foldl (heapStep ss) heap) ∧
        List.insertionSort (· ≤ ·) ((l.foldl (heapStep ss) heap).map (fun x => -x))
          = (List.insertionSort (· ≤ ·) (p ++ l)).take ss := by
  intro l
  induction l with
  | nil =>
    intro p heap h1 h2
    simpa using ⟨h1, h2⟩
  | cons h t ih =>
    intro p heap hs hinv
    have step := heapStep_invariant ss heap h p hs hinv
    have hrec := ih (p ++ [h]) (heapStep ss heap h) step.1 step.2
    simpa [List.append_assoc] using hrec

lemma mash_sketch_hashes_eq (hashes : List ℤ) (ss : ℕ) :
    mash_sketch_hashes hashes ss
      = (List.insertionSort (· ≤ ·) hashes.dedup).take ss := by
  unfold mash_sketch_hashes
  have h := (heap_fold_invariant ss hashes.dedup [] [] (by simp) (by simp)).2
  simpa using h

/-- C6: whenever kmer extraction succeeds, `mash_sketch` returns exactly
the `sketch_size` smallest distinct kmer hash values in ascending order:
the sketch equals the first `sketch_size` entries of the ascending sort of
the distinct hashes, its length is `min sketch_size (number of distinct
hashes)`, and it is strictly increasing (hence duplicate-free). -/
theorem mash_sketch_spec (H : List ℕ → ℤ) (seq : List ℕ)
    (k ss ns : ℕ) (mc : Bool) (km : List (List ℕ))
    (h : get_kmers seq k ns = some km) :
    ∃ sk, mash_sketch H seq k ss ns mc = some sk ∧
      sk = (List.insertionSort (· ≤ ·)
        ((km.map (fun w => hash_kmer H w mc)).dedup)).take ss ∧
      sk.length = min ss ((km.map (fun w => hash_kmer H w mc)).dedup).length ∧
      List.Pairwise (· < ·) sk := by
  refine ⟨mash_sketch_hashes (km.map (fun w => hash_kmer H w mc)) ss, ?_, ?_, ?_, ?_⟩
  · unfold mash_sketch
    rw [h]
    rfl
  · exact mash_sketch_hashes_eq _ ss
  · rw [mash_sketch_hashes_eq]
    simp [List.length_take, List.length_insertionSort]
  · rw [mash_sketch_hashes_eq]
    have hnodup : (List.insertionSort (· ≤ ·)
        ((km.map (fun w => hash_kmer H w mc)).dedup)).Nodup :=
      ((List.perm_insertionSort _ _).nodup_iff).mpr (List.nodup_dedup _)
    have hlt := (List.sorted_insertionSort (· ≤ ·)
      ((km.map (fun w => hash_kmer H w mc)).dedup)).lt_of_le hnodup
    exact List.Pairwise.sublist (List.take_sublist ss _) hlt

/-- C6 amended-claim witness at the concrete sequence `[0, 1]` with
`k = 1`, `sketch_size = 1` and a concrete base-4 tuple hash. -/
theorem mash_sketch_spec_witness :
    ∃ sk, mash_sketch (fun w => w.foldl (fun a s => a * 4 + (s : ℤ)) 0)
        [0, 1] 1 1 4 false = some sk ∧
      sk = (List.insertionSort (· ≤ ·)
        (([[0], [1]].map (fun w => hash_kmer
          (fun w2 => w2.foldl (fun a s => a * 4 + (s : ℤ)) 0) w false)).dedup)).take 1 ∧
      sk.length = min 1 (([[0], [1]].map (fun w => hash_kmer
        (fun w2 => w2.foldl (fun a s => a * 4 + (s : ℤ)) 0) w false)).dedup).length ∧
      List.Pairwise (· < ·) sk :=
  mash_sketch_spec _ [0, 1] 1 1 4 false [[0], [1]] (by decide)

/-- C6 counterexample: for the sequence array `[0]`, shorter than
`k = 2`, `mash_sketch` does not return a sketch at all: the `get_kmers`
call inside it raises `IndexError`. -/
theorem mash_sketch_short_seq_none :
    mash_sketch (fun _ => 0) [0] 2 1 4 false = none := by
  decide
